import Mathlib

/-!
Verification development for `baselines/jft/active_learning.py`.

The selection engine, the fine-tune loop and the round loop of the active
learning controller are shallowly embedded below.  Floating point scores are
modelled by an arbitrary linear order with a bottom element `⊥` standing for
the sentinel `NINF_SCORE = float("-inf")`; concrete instances use `WithBot ℚ`.
The real-valued scoring functions (entropy, margin, density) are modelled
over `ℝ`, with `EReal` as the score type so that `⊥` again models `-inf`.
-/

set_option linter.unusedSectionVars false
set_option linter.unusedVariables false

namespace ActiveLearning

variable {α : Type} [LinearOrder α] [OrderBot α]

/-- Translation of `ids_list.index(ignored_id)` (line 280): the index of the
first entry of `ids` equal to `x`, or `none` when `x` is absent (in which
case Python raises `ValueError`). -/
def firstIdx {n : ℕ} (ids : Fin n → ℕ) (x : ℕ) : Option (Fin n) :=
  (List.finRange n).find? (fun i => decide (ids i = x))

/-- Translation of the forcing loop of `select_acquisition_batch_indices`
(lines 278-280 of the source): for each ignored id in turn, the score at the
first index of `ids` holding that id is set to `⊥` (`NINF_SCORE`); an absent
ignored id makes `list.index` raise `ValueError`, modelled by `none`.
Python iterates a `set` here; the list argument fixes one iteration order. -/
def forceIgnored {n : ℕ} (ids : Fin n → ℕ) : List ℕ → (Fin n → α) → Option (Fin n → α)
  | [], s => some s
  | x :: t, s =>
    match firstIdx ids x with
    | none => none
    | some p => forceIgnored ids t (Function.update s p ⊥)

/-- Decreasing-score order on indices, used to model `np.argpartition(-scores, k)`. -/
def rdesc {n : ℕ} (s2 : Fin n → α) (p q : Fin n) : Prop := s2 q ≤ s2 p

instance rdescDecidable {n : ℕ} (s2 : Fin n → α) : DecidableRel (rdesc s2) :=
  fun p q => inferInstanceAs (Decidable (s2 q ≤ s2 p))

instance rdescTrans {n : ℕ} (s2 : Fin n → α) : IsTrans (Fin n) (rdesc s2) :=
  ⟨fun _ _ _ hab hbc => le_trans hbc hab⟩

instance rdescTotal {n : ℕ} (s2 : Fin n → α) : IsTotal (Fin n) (rdesc s2) :=
  ⟨fun a b => le_total (s2 b) (s2 a)⟩

/-- Indices of the `k` largest entries of `s2`: the first `k` indices after a
stable sort by decreasing score.  This models `np.argpartition(-scores, k)[:k]`
(line 286-287), which returns the indices of some `k` largest entries with an
algorithm-determined but deterministic tie order. -/
def topIdx {n : ℕ} (s2 : Fin n → α) (k : ℕ) : List (Fin n) :=
  (List.insertionSort (rdesc s2) (List.finRange n)).take k

/-- Translation of `select_acquisition_batch_indices` (lines 260-294).
After forcing the ignored ids, the source prints statistics of
`f_ent = scores[scores > NINF_SCORE]` (crashing when that array is empty,
modelled by the first guard) and calls `np.argpartition(-scores, k)`
(raising unless `k < n`, modelled by the second guard), then returns the ids
and scores at the selected indices. -/
def select_acquisition_batch_indices {n : ℕ} (k : ℕ) (scores : Fin n → α)
    (ids : Fin n → ℕ) (ignored : List ℕ) : Option (List ℕ × List α) :=
  match forceIgnored ids ignored scores with
  | none => none
  | some s2 =>
    if ∃ i, ⊥ < s2 i then
      if k < n then
        some ((topIdx s2 k).map ids, (topIdx s2 k).map s2)
      else none
    else none

/-- The selection-engine contract claimed by the spec, written from the
words of the spec: the result has exactly `k` selected ids, they are pairwise
distinct, none of them is ignored, each comes from the pool, there are `k`
returned scores, and every pool entry whose id was not selected has
effective (post-forcing) score at most every selected score, hence at most
the minimum selected score (top-k). -/
def selectSpec {n : ℕ} (k : ℕ) (scores : Fin n → α) (ids : Fin n → ℕ)
    (ignored : List ℕ) (sel : List ℕ) (ss : List α) : Prop :=
  sel.length = k ∧ sel.Nodup ∧ (∀ x ∈ sel, x ∉ ignored) ∧
    (∀ x ∈ sel, ∃ i, ids i = x) ∧ ss.length = k ∧
    ∀ i : Fin n, ids i ∉ sel → ∀ s ∈ ss,
      (if ids i ∈ ignored then (⊥ : α) else scores i) ≤ s

instance selectSpecDecidable {n : ℕ} (k : ℕ) (scores : Fin n → α) (ids : Fin n → ℕ)
    (ignored : List ℕ) (sel : List ℕ) (ss : List α) :
    Decidable (selectSpec k scores ids ignored sel ss) := by
  unfold selectSpec
  infer_instance

theorem firstIdx_eq {n : ℕ} {ids : Fin n → ℕ} {x : ℕ} {p : Fin n}
    (hp : firstIdx ids x = some p) : ids p = x := by
  simp only [firstIdx] at hp
  have h := List.find?_some hp
  exact of_decide_eq_true h

theorem firstIdx_of_present {n : ℕ} (ids : Fin n → ℕ) (x : ℕ)
    (h : ∃ i, ids i = x) : ∃ p, firstIdx ids x = some p ∧ ids p = x := by
  obtain ⟨j, hj⟩ := h
  cases hp : firstIdx ids x with
  | none =>
    exfalso
    simp only [firstIdx] at hp
    have h2 := List.find?_eq_none.mp hp j (List.mem_finRange j)
    simp only [decide_eq_true_eq] at h2
    exact h2 hj
  | some p => exact ⟨p, rfl, firstIdx_eq hp⟩

/-- When every ignored id is present and ids are pairwise distinct, the
forcing loop succeeds and replaces exactly the scores of ignored ids by `⊥`. -/
theorem force_spec {n : ℕ} (ids : Fin n → ℕ) (l : List ℕ) (s : Fin n → α)
    (hinj : Function.Injective ids) (hpres : ∀ x ∈ l, ∃ i, ids i = x) :
    forceIgnored ids l s = some (fun i => if ids i ∈ l then (⊥ : α) else s i) := by
  induction l generalizing s with
  | nil => simp [forceIgnored]
  | cons x t ih =>
    obtain ⟨p, hp, hpx⟩ :=
      firstIdx_of_present ids x (hpres x (List.mem_cons_self x t))
    simp only [forceIgnored, hp]
    rw [ih (Function.update s p ⊥) (fun y hy => hpres y (List.mem_cons_of_mem x hy))]
    congr 1
    funext i
    by_cases hmem : ids i ∈ x :: t
    · rw [if_pos hmem]
      rcases List.mem_cons.mp hmem with hx | ht
      · have hip : i = p := hinj (hx.trans hpx.symm)
        subst hip
        by_cases h2 : ids i ∈ t
        · rw [if_pos h2]
        · rw [if_neg h2, Function.update_same]
      · rw [if_pos ht]
    · have hne : ids i ≠ x := fun h => hmem (List.mem_cons.mpr (Or.inl h))
      have hnt : ids i ∉ t := fun h => hmem (List.mem_cons.mpr (Or.inr h))
      rw [if_neg hmem, if_neg hnt,
        Function.update_noteq (fun hip : i = p => hne (by rw [hip, hpx]))]

/-- Without assuming distinct ids: when every ignored id is present, the
forcing loop succeeds and produces exactly the array whose entries at the
first occurrences of ignored ids are `⊥` and whose every other entry is
the unchanged input score. -/
theorem force_char {n : ℕ} (ids : Fin n → ℕ) (l : List ℕ) (s : Fin n → α)
    (hpres : ∀ x ∈ l, ∃ i, ids i = x) :
    forceIgnored ids l s =
      some (fun i => if ∃ x ∈ l, firstIdx ids x = some i then (⊥ : α) else s i) := by
  induction l generalizing s with
  | nil => simp [forceIgnored]
  | cons x t ih =>
    obtain ⟨p, hp, hpx⟩ :=
      firstIdx_of_present ids x (hpres x (List.mem_cons_self x t))
    simp only [forceIgnored, hp]
    rw [ih (Function.update s p ⊥) (fun y hy => hpres y (List.mem_cons_of_mem x hy))]
    congr 1
    funext i
    by_cases hA : ∃ y ∈ t, firstIdx ids y = some i
    · obtain ⟨y, hy, hyi⟩ := hA
      rw [if_pos ⟨y, hy, hyi⟩, if_pos ⟨y, List.mem_cons_of_mem x hy, hyi⟩]
    · rw [if_neg hA]
      by_cases hip : i = p
      · subst hip
        rw [Function.update_same, if_pos ⟨x, List.mem_cons_self x t, hp⟩]
      · rw [Function.update_noteq hip,
          if_neg (by
            rintro ⟨y, hy, hyi⟩
            rcases List.mem_cons.mp hy with rfl | hyt
            · rw [hp] at hyi
              exact hip (Option.some.inj hyi).symm
            · exact hA ⟨y, hyt, hyi⟩)]

/-- An ignored id that is absent from the pool makes the forcing loop fail:
`list.index` raises `ValueError` in the source. -/
theorem force_absent {n : ℕ} (ids : Fin n → ℕ) (l : List ℕ) (s : Fin n → α)
    (x : ℕ) (hx : x ∈ l) (habs : ∀ i, ids i ≠ x) :
    forceIgnored ids l s = none := by
  induction l generalizing s with
  | nil => simp at hx
  | cons y t ih =>
    cases hp : firstIdx ids y with
    | none => simp only [forceIgnored, hp]
    | some p =>
      rcases List.mem_cons.mp hx with rfl | hxt
      · exact absurd (firstIdx_eq hp) (habs p)
      · simp only [forceIgnored, hp]
        exact ih _ hxt

/-- The forcing loop depends on the collection of ignored ids only, not on
the iteration order of the Python set holding them. -/
theorem forceIgnored_perm {n : ℕ} (ids : Fin n → ℕ) {l1 l2 : List ℕ}
    (h : l1.Perm l2) : ∀ s : Fin n → α, forceIgnored ids l1 s = forceIgnored ids l2 s := by
  induction h with
  | nil => intro s; rfl
  | cons x hperm ih =>
    intro s
    cases hp : firstIdx ids x with
    | none => simp only [forceIgnored, hp]
    | some p =>
      simp only [forceIgnored, hp]
      exact ih _
  | swap x y t =>
    intro s
    cases hy : firstIdx ids y with
    | none =>
      cases hx : firstIdx ids x with
      | none => simp only [forceIgnored, hy, hx]
      | some p => simp only [forceIgnored, hy, hx]
    | some q =>
      cases hx : firstIdx ids x with
      | none => simp only [forceIgnored, hy, hx]
      | some p =>
        simp only [forceIgnored, hy, hx]
        by_cases hpq : p = q
        · subst hpq
          rfl
        · rw [Function.update_comm hpq]
  | trans _ _ ih1 ih2 =>
    intro s
    exact (ih1 s).trans (ih2 s)

theorem topIdx_length {n : ℕ} (s2 : Fin n → α) {k : ℕ} (hkn : k ≤ n) :
    (topIdx s2 k).length = k := by
  simp only [topIdx, List.length_take, List.length_insertionSort, List.length_finRange]
  omega

theorem topIdx_nodup {n : ℕ} (s2 : Fin n → α) (k : ℕ) : (topIdx s2 k).Nodup := by
  have h : (List.insertionSort (rdesc s2) (List.finRange n)).Nodup :=
    (List.perm_insertionSort (rdesc s2) (List.finRange n)).nodup_iff.mpr
      (List.nodup_finRange n)
  exact h.sublist (List.take_sublist k _)

theorem topIdx_ge {n : ℕ} (s2 : Fin n → α) (k : ℕ) :
    ∀ a ∈ topIdx s2 k, ∀ i : Fin n, i ∉ topIdx s2 k → s2 i ≤ s2 a := by
  intro a ha i hi
  have hsorted : (List.insertionSort (rdesc s2) (List.finRange n)).Pairwise (rdesc s2) :=
    List.sorted_insertionSort (rdesc s2) (List.finRange n)
  rw [← List.take_append_drop k (List.insertionSort (rdesc s2) (List.finRange n))]
    at hsorted
  have hcross := (List.pairwise_append.mp hsorted).2.2
  have himem : i ∈ (List.insertionSort (rdesc s2) (List.finRange n)).drop k := by
    have hin : i ∈ (List.insertionSort (rdesc s2) (List.finRange n)).take k ++
        (List.insertionSort (rdesc s2) (List.finRange n)).drop k := by
      rw [List.take_append_drop]
      exact (List.mem_insertionSort (rdesc s2)).mpr (List.mem_finRange i)
    rcases List.mem_append.mp hin with h | h
    · exact absurd h hi
    · exact h
  exact hcross a ha i himem

theorem topIdx_pos {n : ℕ} (s2 : Fin n → α) {k : ℕ} (hkn : k ≤ n)
    (hV : k ≤ (Finset.univ.filter fun i => ⊥ < s2 i).card) :
    ∀ a ∈ topIdx s2 k, ⊥ < s2 a := by
  intro a ha
  by_contra hbot
  have hbot2 : s2 a = ⊥ := le_bot_iff.mp (not_lt.mp hbot)
  have hsub : (Finset.univ.filter fun i => ⊥ < s2 i) ⊆
      ((topIdx s2 k).toFinset).erase a := by
    intro i hi
    rw [Finset.mem_filter] at hi
    have hipos := hi.2
    have hitop : i ∈ topIdx s2 k := by
      by_contra hnot
      have hle := topIdx_ge s2 k a ha i hnot
      rw [hbot2] at hle
      exact hipos.ne' (le_bot_iff.mp hle)
    refine Finset.mem_erase.mpr ⟨?_, List.mem_toFinset.mpr hitop⟩
    intro hia
    rw [hia, hbot2] at hipos
    exact lt_irrefl ⊥ hipos
  have hcard := Finset.card_le_card hsub
  rw [Finset.card_erase_of_mem (List.mem_toFinset.mpr ha),
    List.toFinset_card_of_nodup (topIdx_nodup s2 k), topIdx_length s2 hkn] at hcard
  have hk1 : 0 < (topIdx s2 k).length := List.length_pos.mpr (List.ne_nil_of_mem ha)
  rw [topIdx_length s2 hkn] at hk1
  omega

/-- Core correctness of the selection engine: with pairwise-distinct ids,
all ignored ids present in the pool, at least `k` valid non-ignored scores,
and `1 ≤ k < n`, the call succeeds and satisfies the top-k contract. -/
theorem select_success_spec {n : ℕ} (k : ℕ) (scores : Fin n → α) (ids : Fin n → ℕ)
    (ignored : List ℕ)
    (hinj : Function.Injective ids)
    (hpres : ∀ x ∈ ignored, ∃ i, ids i = x)
    (hcount : k ≤ (Finset.univ.filter
      (fun i => ids i ∉ ignored ∧ ⊥ < scores i)).card)
    (hk1 : 1 ≤ k) (hkn : k < n) :
    ∃ sel ss, select_acquisition_batch_indices k scores ids ignored = some (sel, ss) ∧
      selectSpec k scores ids ignored sel ss := by
  have hforce := force_spec ids ignored scores hinj hpres
  have hVcard : k ≤ (Finset.univ.filter
      fun i => ⊥ < (fun j => if ids j ∈ ignored then (⊥ : α) else scores j) i).card := by
    refine le_trans hcount (Finset.card_le_card ?_)
    intro i hi
    rw [Finset.mem_filter] at hi ⊢
    refine ⟨hi.1, ?_⟩
    show ⊥ < if ids i ∈ ignored then (⊥ : α) else scores i
    rw [if_neg hi.2.1]
    exact hi.2.2
  have hex : ∃ i, ⊥ < (fun j => if ids j ∈ ignored then (⊥ : α) else scores j) i := by
    obtain ⟨i, hi⟩ := Finset.card_pos.mp (lt_of_lt_of_le hk1 hVcard)
    exact ⟨i, (Finset.mem_filter.mp hi).2⟩
  have hsel : select_acquisition_batch_indices k scores ids ignored =
      some (((topIdx (fun j => if ids j ∈ ignored then (⊥ : α) else scores j) k).map ids),
        ((topIdx (fun j => if ids j ∈ ignored then (⊥ : α) else scores j) k).map
          (fun j => if ids j ∈ ignored then (⊥ : α) else scores j))) := by
    simp only [select_acquisition_batch_indices, hforce]
    rw [if_pos hex, if_pos hkn]
  refine ⟨_, _, hsel, ?_, ?_, ?_, ?_, ?_, ?_⟩
  · rw [List.length_map]
    exact topIdx_length _ (le_of_lt hkn)
  · exact (topIdx_nodup _ k).map hinj
  · intro x hx
    obtain ⟨a, ha, rfl⟩ := List.mem_map.mp hx
    have hpos := topIdx_pos _ (le_of_lt hkn) hVcard a ha
    intro hmem
    revert hpos
    show ¬(⊥ < if ids a ∈ ignored then (⊥ : α) else scores a)
    rw [if_pos hmem]
    exact lt_irrefl ⊥
  · intro x hx
    obtain ⟨a, _, rfl⟩ := List.mem_map.mp hx
    exact ⟨a, rfl⟩
  · rw [List.length_map]
    exact topIdx_length _ (le_of_lt hkn)
  · intro i hnot s hs
    obtain ⟨a, ha, rfl⟩ := List.mem_map.mp hs
    have hitop : i ∉ topIdx (fun j => if ids j ∈ ignored then (⊥ : α) else scores j) k :=
      fun hmem => hnot (List.mem_map_of_mem ids hmem)
    exact topIdx_ge _ k a ha i hitop

/-- C1 (amended): when every id occurs at most once in `ids` (globally, not
just among valid entries), every ignored id occurs in `ids`, at least
`acquisition_batch_size` non-ignored scores are strictly above `-infinity`,
and `1 ≤ acquisition_batch_size < n` (the pool size strictly exceeds the
batch size, as the spec requires of callers), the call returns exactly
`acquisition_batch_size` distinct pool ids, disjoint from `ignored_ids`, and
every pool entry whose id is not selected has effective (post-forcing) score
at most every selected score, hence at most the minimum selected score. -/
theorem C1_selection_topk {n : ℕ} (k : ℕ) (scores : Fin n → α) (ids : Fin n → ℕ)
    (ignored : List ℕ)
    (hinj : Function.Injective ids)
    (hpres : ∀ x ∈ ignored, ∃ i, ids i = x)
    (hcount : k ≤ (Finset.univ.filter
      (fun i => ids i ∉ ignored ∧ ⊥ < scores i)).card)
    (hk1 : 1 ≤ k) (hkn : k < n) :
    ∃ sel ss, select_acquisition_batch_indices k scores ids ignored = some (sel, ss) ∧
      selectSpec k scores ids ignored sel ss :=
  select_success_spec k scores ids ignored hinj hpres hcount hk1 hkn

theorem C1_selection_topk_witness :
    Function.Injective (![10, 20, 30] : Fin 3 → ℕ) ∧
    (∀ x ∈ [20], ∃ i : Fin 3, (![10, 20, 30] : Fin 3 → ℕ) i = x) ∧
    1 ≤ (Finset.univ.filter (fun i : Fin 3 => (![10, 20, 30] : Fin 3 → ℕ) i ∉ [20] ∧
      ⊥ < (![((3 : ℚ) : WithBot ℚ), ((5 : ℚ) : WithBot ℚ), ((2 : ℚ) : WithBot ℚ)]) i)).card ∧
    (1 : ℕ) ≤ 1 ∧ 1 < 3 ∧
    ∃ sel ss,
      select_acquisition_batch_indices 1
        (![((3 : ℚ) : WithBot ℚ), ((5 : ℚ) : WithBot ℚ), ((2 : ℚ) : WithBot ℚ)])
        ![10, 20, 30] [20] = some (sel, ss) ∧
      selectSpec 1 (![((3 : ℚ) : WithBot ℚ), ((5 : ℚ) : WithBot ℚ), ((2 : ℚ) : WithBot ℚ)])
        ![10, 20, 30] [20] sel ss :=
  ⟨by decide, by decide, by decide, by decide, by decide,
    C1_selection_topk 1 _ _ _ (by decide) (by decide) (by decide) (by decide) (by decide)⟩

/-- C1 counterexample: the claim as stated only requires ids to be unique
among mask-valid entries (valid means score above `-infinity`, as the
scoring functions force invalid entries to `-infinity`).  Here id `7`
occurs at invalid position 0 and at valid position 1; `ids_list.index(7)`
forces position 0, so the valid copy of the ignored id `7` survives and is
selected: the result violates disjointness from `ignored_ids`, refuting
the claim at this input even though all its preconditions hold. -/
theorem C1_counterexample :
    (∀ i j : Fin 3,
      ⊥ < (![⊥, ((5 : ℚ) : WithBot ℚ), ((2 : ℚ) : WithBot ℚ)]) i →
      ⊥ < (![⊥, ((5 : ℚ) : WithBot ℚ), ((2 : ℚ) : WithBot ℚ)]) j →
      (![7, 7, 3] : Fin 3 → ℕ) i = (![7, 7, 3] : Fin 3 → ℕ) j → i = j) ∧
    (∀ x ∈ [7], ∃ i : Fin 3, (![7, 7, 3] : Fin 3 → ℕ) i = x) ∧
    1 ≤ (Finset.univ.filter (fun i : Fin 3 => (![7, 7, 3] : Fin 3 → ℕ) i ∉ [7] ∧
      ⊥ < (![⊥, ((5 : ℚ) : WithBot ℚ), ((2 : ℚ) : WithBot ℚ)]) i)).card ∧
    select_acquisition_batch_indices 1
      (![⊥, ((5 : ℚ) : WithBot ℚ), ((2 : ℚ) : WithBot ℚ)]) ![7, 7, 3] [7] =
      some ([7], [((5 : ℚ) : WithBot ℚ)]) ∧
    ¬ selectSpec 1 (![⊥, ((5 : ℚ) : WithBot ℚ), ((2 : ℚ) : WithBot ℚ)])
      ![7, 7, 3] [7] [7] [((5 : ℚ) : WithBot ℚ)] := by
  decide

/-- C2 (amended): when every id in `ignored_ids` is present in `ids`, the
forcing loop succeeds, each ignored id has the score at (its first
occurrence, hence) an occurrence holding it forced to `-infinity`, and
every entry that is not the first occurrence of some ignored id keeps its
score unchanged; but an id in `ignored_ids` that is absent from `ids` is
not skipped: `list.index` raises `ValueError` (line 280), modelled by the
call returning `none`. -/
theorem C2_ignored_forcing :
    (∀ (n : ℕ) (ids : Fin n → ℕ) (l : List ℕ) (s : Fin n → α),
      (∀ x ∈ l, ∃ i, ids i = x) →
      ∃ s2, forceIgnored ids l s = some s2 ∧
        (∀ x ∈ l, ∃ i, ids i = x ∧ s2 i = ⊥) ∧
        (∀ i, (∀ x ∈ l, firstIdx ids x ≠ some i) → s2 i = s i)) ∧
    (∀ (n k : ℕ) (scores : Fin n → α) (ids : Fin n → ℕ) (l : List ℕ) (x : ℕ),
      x ∈ l → (∀ i, ids i ≠ x) →
      select_acquisition_batch_indices k scores ids l = none) := by
  constructor
  · intro n ids l s hpres
    refine ⟨_, force_char ids l s hpres, ?_, ?_⟩
    · intro x hx
      obtain ⟨p, hp, hpx⟩ := firstIdx_of_present ids x (hpres x hx)
      refine ⟨p, hpx, ?_⟩
      show (if ∃ y ∈ l, firstIdx ids y = some p then (⊥ : α) else s p) = ⊥
      rw [if_pos ⟨x, hx, hp⟩]
    · intro i hi
      show (if ∃ y ∈ l, firstIdx ids y = some i then (⊥ : α) else s i) = s i
      rw [if_neg (by
        rintro ⟨y, hy, hyi⟩
        exact hi y hy hyi)]
  · intro n k scores ids l x hx habs
    simp only [select_acquisition_batch_indices, force_absent ids l scores x hx habs]

theorem C2_ignored_forcing_witness :
    (∀ x ∈ [6], ∃ i : Fin 2, (![5, 6] : Fin 2 → ℕ) i = x) ∧
    (∃ s2, forceIgnored (α := WithBot ℚ) ![5, 6] [6]
        (![((3 : ℚ) : WithBot ℚ), ((4 : ℚ) : WithBot ℚ)]) = some s2 ∧
      (∀ x ∈ [6], ∃ i, (![5, 6] : Fin 2 → ℕ) i = x ∧ s2 i = ⊥) ∧
      (∀ i, (∀ x ∈ [6], firstIdx (![5, 6] : Fin 2 → ℕ) x ≠ some i) → s2 i =
        (![((3 : ℚ) : WithBot ℚ), ((4 : ℚ) : WithBot ℚ)]) i)) ∧
    ((5 : ℕ) ∈ [5]) ∧ (∀ i : Fin 1, (![0] : Fin 1 → ℕ) i ≠ 5) ∧
    select_acquisition_batch_indices 1 (![((1 : ℚ) : WithBot ℚ)]) ![0] [5] = none :=
  ⟨by decide, C2_ignored_forcing.1 2 ![5, 6] [6] _ (by decide), by decide, by decide,
    C2_ignored_forcing.2 1 1 _ ![0] [5] 5 (by decide) (by decide)⟩

/-- C2 counterexample: the claim states that an ignored id absent from `ids`
is skipped without error.  In the source, `ids_list.index(ignored_id)`
raises `ValueError` for an absent id, so the call fails (`none`): here id
`5` is ignored but absent from the pool whose only id is `0`. -/
theorem C2_counterexample :
    ((5 : ℕ) ∈ [5]) ∧ (∀ i : Fin 1, (![0] : Fin 1 → ℕ) i ≠ 5) ∧
    select_acquisition_batch_indices 1 (![((1 : ℚ) : WithBot ℚ)]) ![0] [5] = none := by
  decide

/-- C9: the selection engine is deterministic.  It is a pure function of
`(acquisition_batch_size, scores, ids, ignored_ids)`, and its result does
not depend on the iteration order of the Python set `ignored_ids`: two
calls whose ignored lists are permutations of one another (the same set)
return identical results — ids and scores alike. -/
theorem C9_select_deterministic {n : ℕ} (k : ℕ) (scores : Fin n → α)
    (ids : Fin n → ℕ) {l1 l2 : List ℕ} (h : l1.Perm l2) :
    select_acquisition_batch_indices k scores ids l1 =
      select_acquisition_batch_indices k scores ids l2 := by
  simp only [select_acquisition_batch_indices]
  rw [forceIgnored_perm ids h scores]

/-- Softmax of a row of logits, as computed by `jax.nn.softmax`.  Exact real
arithmetic is used, so every probability is strictly positive. -/
noncomputable def softmax {C : ℕ} (l : Fin C → ℝ) (j : Fin C) : ℝ :=
  Real.exp (l j) / ∑ m, Real.exp (l m)

/-- Log-softmax of a row of logits, as computed by `jax.nn.log_softmax`:
the logit minus the log of the partition sum. -/
noncomputable def log_softmax {C : ℕ} (l : Fin C → ℝ) (j : Fin C) : ℝ :=
  l j - Real.log (∑ m, Real.exp (l m))

/-- One term `-p * log_p` of the entropy sum with the NaN guard of lines
172-174 of the source: in float arithmetic `p = 0` gives the term
`0 * (-inf) = NaN`, which `jnp.where(jnp.isnan(...), 0, ...)` replaces by
`0`; the guard is expressed by the `p = 0` test. -/
noncomputable def weightedNat (p lp : ℝ) : ℝ := if p = 0 then 0 else -(p * lp)

/-- Entropy (in nats) of a probability vector: the sum of guarded terms. -/
noncomputable def entropyNats {C : ℕ} (p : Fin C → ℝ) : ℝ :=
  ∑ j, weightedNat (p j) (Real.log (p j))

/-- Translation of `get_entropy_scores` (lines 159-178): per-row entropy of
the softmax distribution, with masked-out rows forced to `NINF_SCORE`. -/
noncomputable def get_entropy_scores {n C : ℕ} (logits : Fin n → Fin C → ℝ)
    (masks : Fin n → Bool) (i : Fin n) : EReal :=
  if masks i then
    ((∑ j, weightedNat (softmax (logits i) j) (log_softmax (logits i) j) : ℝ) : EReal)
  else ⊥

/-- Ascending sort of a row of probabilities, as computed by
`jnp.take_along_axis(probs, jnp.argsort(probs, axis=-1), axis=-1)`
(lines 192-193 of the source). -/
noncomputable def sortedProbs {C : ℕ} (p : Fin C → ℝ) : List ℝ :=
  List.insertionSort (fun a b : ℝ => a ≤ b) (List.ofFn p)

/-- Largest entry of a row: `sorted_probs[..., -1]`. -/
noncomputable def topProb {C : ℕ} (p : Fin C → ℝ) : ℝ :=
  (sortedProbs p).getD (C - 1) 0

/-- Second-largest entry of a row: `sorted_probs[..., -2]`.  The source
indexes `-2`, so it needs at least two classes; the claims assume `2 ≤ C`. -/
noncomputable def secondProb {C : ℕ} (p : Fin C → ℝ) : ℝ :=
  (sortedProbs p).getD (C - 2) 0

/-- Translation of `get_margin_scores` (lines 181-200): minus the margin
between the two largest softmax probabilities, with masked-out rows forced
to `NINF_SCORE`. -/
noncomputable def get_margin_scores {n C : ℕ} (logits : Fin n → Fin C → ℝ)
    (masks : Fin n → Bool) (i : Fin n) : EReal :=
  if masks i then
    ((-(topProb (softmax (logits i)) - secondProb (softmax (logits i))) : ℝ) : EReal)
  else ⊥

/-- Translation of `get_uniform_scores` (lines 203-216).  The draws of
`jax.random.uniform(key=rng, shape=masks.shape)` are a deterministic
function of the rng key, abstracted as the per-example vector `rand`. -/
def get_uniform_scores {n : ℕ} (rand : Fin n → ℝ) (masks : Fin n → Bool)
    (i : Fin n) : EReal :=
  if masks i then (rand i : EReal) else ⊥

/-- Modelled from the spec: `ood_utils.compute_mahalanobis_distance` is code
of this repository that is not under `src/`.  Per the spec (section 4.2,
Density), each example is scored through the Mahalanobis distance of its
feature vector to a class mean under the shared fitted covariance. -/
noncomputable def mahalanobis {d : ℕ} (cov : Matrix (Fin d) (Fin d) ℝ)
    (mu x : Fin d → ℝ) : ℝ :=
  Matrix.dotProduct (x - mu) (Matrix.mulVec cov⁻¹ (x - mu))

/-- The raw density score of line 249: `logsumexp(-dists / 2, axis=-1)`. -/
noncomputable def densityRaw {n d K : ℕ} (pre : Fin n → Fin d → ℝ)
    (means : Fin K → Fin d → ℝ) (cov : Matrix (Fin d) (Fin d) ℝ) (i : Fin n) : ℝ :=
  Real.log (∑ c, Real.exp (-(mahalanobis cov (means c) (pre i)) / 2))

/-- Translation of the normalisation and masking of `get_density_scores`
(lines 246-257).  The fitting prelude (lines 234-243) runs the network over
the labelled training set and calls `ood_utils.compute_mean_and_cov`, both
outside `src/`; its result is abstracted as the `means` and `cov` inputs.
Within the valid subset, a score is the maximum observed raw score minus
the raw score; invalid entries are forced to `NINF_SCORE`.  When no entry
is valid, `scores[pool_masks_bool].max()` raises on an empty array,
modelled by `none`. -/
noncomputable def get_density_scores {n d K : ℕ} (pre : Fin n → Fin d → ℝ)
    (masks : Fin n → Bool) (means : Fin K → Fin d → ℝ)
    (cov : Matrix (Fin d) (Fin d) ℝ) : Option (Fin n → EReal) :=
  if h : ∃ i, masks i = true then
    some (fun i =>
      if masks i then
        (((Finset.univ.filter (fun j => masks j = true)).sup'
            (h.elim fun i0 hi0 => ⟨i0, Finset.mem_filter.mpr ⟨Finset.mem_univ i0, hi0⟩⟩)
            (densityRaw pre means cov) - densityRaw pre means cov i : ℝ) : EReal)
      else ⊥)
  else none

theorem sum_exp_pos {C : ℕ} (l : Fin C → ℝ) (j : Fin C) :
    (0 : ℝ) < ∑ m, Real.exp (l m) :=
  Finset.sum_pos (fun m _ => Real.exp_pos _) ⟨j, Finset.mem_univ j⟩

theorem log_softmax_eq {C : ℕ} (l : Fin C → ℝ) (j : Fin C) :
    log_softmax l j = Real.log (softmax l j) := by
  rw [softmax, Real.log_div (Real.exp_ne_zero _) (ne_of_gt (sum_exp_pos l j)),
    Real.log_exp, log_softmax]

theorem entropyNats_uniform (C : ℕ) :
    entropyNats (fun _ : Fin C => ((C : ℝ))⁻¹) = Real.log (C : ℝ) := by
  cases C with
  | zero =>
    rw [entropyNats]
    simp [Real.log_zero]
  | succ m =>
    have hpos : (0 : ℝ) < ((m + 1 : ℕ) : ℝ) := by positivity
    have hne : (((m + 1 : ℕ) : ℝ))⁻¹ ≠ 0 := inv_ne_zero (ne_of_gt hpos)
    rw [entropyNats]
    have hterm : ∀ j : Fin (m + 1),
        weightedNat ((((m + 1 : ℕ) : ℝ))⁻¹) (Real.log ((((m + 1 : ℕ) : ℝ))⁻¹)) =
          (((m + 1 : ℕ) : ℝ))⁻¹ * Real.log (((m + 1 : ℕ) : ℝ)) := by
      intro j
      rw [weightedNat, if_neg hne, Real.log_inv]
      ring
    rw [Finset.sum_congr rfl fun j _ => hterm j, Finset.sum_const, Finset.card_univ,
      Fintype.card_fin, nsmul_eq_mul, ← mul_assoc, mul_inv_cancel₀ (ne_of_gt hpos), one_mul]

theorem entropyNats_onehot {C : ℕ} (p : Fin C → ℝ) (j : Fin C) (hj : p j = 1)
    (hm : ∀ m, m ≠ j → p m = 0) : entropyNats p = 0 := by
  rw [entropyNats]
  apply Finset.sum_eq_zero
  intro m _
  by_cases hmj : m = j
  · subst hmj
    rw [hj, weightedNat, if_neg one_ne_zero, Real.log_one]
    ring
  · rw [hm m hmj, weightedNat, if_pos rfl]

/-- C3: on every valid row the entropy score equals the guarded entropy of
the softmax distribution; a row whose softmax is the uniform distribution
over `C` classes scores exactly `ln C`; a one-hot probability vector has
guarded entropy exactly `0`, every NaN term arising from `0 * log 0` having
been replaced by `0` before summation (the guard in `weightedNat`). -/
theorem C3_entropy_scores :
    (∀ (n C : ℕ) (logits : Fin n → Fin C → ℝ) (masks : Fin n → Bool) (i : Fin n),
      masks i = true →
      get_entropy_scores logits masks i =
        ((entropyNats (softmax (logits i)) : ℝ) : EReal)) ∧
    (∀ (n C : ℕ) (logits : Fin n → Fin C → ℝ) (masks : Fin n → Bool) (i : Fin n),
      masks i = true → softmax (logits i) = (fun _ => ((C : ℝ))⁻¹) →
      get_entropy_scores logits masks i = ((Real.log (C : ℝ) : ℝ) : EReal)) ∧
    (∀ (C : ℕ) (p : Fin C → ℝ) (j : Fin C), p j = 1 → (∀ m, m ≠ j → p m = 0) →
      entropyNats p = 0) := by
  have hrow : ∀ (n C : ℕ) (logits : Fin n → Fin C → ℝ) (masks : Fin n → Bool) (i : Fin n),
      masks i = true →
      get_entropy_scores logits masks i =
        ((entropyNats (softmax (logits i)) : ℝ) : EReal) := by
    intro n C logits masks i hm
    rw [get_entropy_scores, if_pos hm, entropyNats]
    congr 1
    exact Finset.sum_congr rfl fun j _ => by rw [log_softmax_eq]
  refine ⟨hrow, ?_, ?_⟩
  · intro n C logits masks i hm huni
    rw [hrow n C logits masks i hm, huni, entropyNats_uniform C]
  · intro C p j hj hm
    exact entropyNats_onehot p j hj hm

theorem C3_entropy_scores_witness :
    ((fun _ : Fin 1 => true) 0 = true) ∧
    (softmax ((fun _ : Fin 1 => fun _ : Fin 2 => (0 : ℝ)) 0) = fun _ => (((2 : ℕ) : ℝ))⁻¹) ∧
    get_entropy_scores (fun _ : Fin 1 => fun _ : Fin 2 => (0 : ℝ)) (fun _ => true) 0 =
      ((entropyNats (softmax ((fun _ : Fin 1 => fun _ : Fin 2 => (0 : ℝ)) 0)) : ℝ) : EReal) ∧
    get_entropy_scores (fun _ : Fin 1 => fun _ : Fin 2 => (0 : ℝ)) (fun _ => true) 0 =
      ((Real.log ((2 : ℕ) : ℝ) : ℝ) : EReal) ∧
    ((![1, 0] : Fin 2 → ℝ) 0 = 1) ∧ (∀ m : Fin 2, m ≠ 0 → (![1, 0] : Fin 2 → ℝ) m = 0) ∧
    entropyNats (![1, 0] : Fin 2 → ℝ) = 0 := by
  have huni : softmax ((fun _ : Fin 1 => fun _ : Fin 2 => (0 : ℝ)) 0) =
      fun _ => (((2 : ℕ) : ℝ))⁻¹ := by
    funext j
    rw [softmax]
    norm_num [Real.exp_zero]
  have h1 : (![1, 0] : Fin 2 → ℝ) 0 = 1 := by simp
  have h2 : ∀ m : Fin 2, m ≠ 0 → (![1, 0] : Fin 2 → ℝ) m = 0 := by
    intro m hm
    fin_cases m
    · exact absurd rfl hm
    · simp
  exact ⟨rfl, huni, C3_entropy_scores.1 1 2 _ _ 0 rfl,
    C3_entropy_scores.2.1 1 2 _ _ 0 rfl huni, h1, h2, C3_entropy_scores.2.2 2 _ 0 h1 h2⟩

theorem sortedProbs_length {C : ℕ} (p : Fin C → ℝ) : (sortedProbs p).length = C := by
  rw [sortedProbs, List.length_insertionSort, List.length_ofFn]

theorem sortedProbs_sorted {C : ℕ} (p : Fin C → ℝ) :
    (sortedProbs p).Sorted (fun a b : ℝ => a ≤ b) :=
  List.sorted_insertionSort _ _

theorem sortedProbs_perm {C : ℕ} (p : Fin C → ℝ) :
    (sortedProbs p).Perm (List.ofFn p) :=
  List.perm_insertionSort _ _

theorem mem_sortedProbs {C : ℕ} (p : Fin C → ℝ) (j : Fin C) :
    p j ∈ sortedProbs p := by
  rw [(sortedProbs_perm p).mem_iff, List.mem_ofFn]
  exact ⟨j, rfl⟩

theorem sortedProbs_exists {C : ℕ} (p : Fin C → ℝ) {x : ℝ}
    (hx : x ∈ sortedProbs p) : ∃ j, p j = x := by
  rw [(sortedProbs_perm p).mem_iff, List.mem_ofFn] at hx
  exact hx

theorem sortedProbs_getElem_le {C : ℕ} (p : Fin C → ℝ) {u v : ℕ} (huv : u ≤ v)
    (hu : u < (sortedProbs p).length) (hv : v < (sortedProbs p).length) :
    (sortedProbs p)[u] ≤ (sortedProbs p)[v] := by
  rcases Nat.eq_or_lt_of_le huv with rfl | hlt
  · exact le_refl _
  · exact List.pairwise_iff_getElem.mp (sortedProbs_sorted p) u v hu hv hlt

theorem topProb_attained {C : ℕ} (p : Fin C → ℝ) (hC : 1 ≤ C) :
    ∃ j, p j = topProb p := by
  have hlen := sortedProbs_length p
  have h1 : C - 1 < (sortedProbs p).length := by omega
  rw [topProb, List.getD_eq_getElem _ _ h1]
  exact sortedProbs_exists p (List.getElem_mem h1)

theorem le_topProb {C : ℕ} (p : Fin C → ℝ) (j : Fin C) : p j ≤ topProb p := by
  have hlen := sortedProbs_length p
  have hC : 1 ≤ C := by have := j.isLt; omega
  obtain ⟨u, hu, hval⟩ := List.mem_iff_getElem.mp (mem_sortedProbs p j)
  have h1 : C - 1 < (sortedProbs p).length := by omega
  rw [topProb, List.getD_eq_getElem _ _ h1, ← hval]
  exact sortedProbs_getElem_le p (by omega) hu h1

theorem secondProb_le_topProb {C : ℕ} (p : Fin C → ℝ) (hC : 2 ≤ C) :
    secondProb p ≤ topProb p := by
  have hlen := sortedProbs_length p
  have h1 : C - 1 < (sortedProbs p).length := by omega
  have h2 : C - 2 < (sortedProbs p).length := by omega
  rw [topProb, secondProb, List.getD_eq_getElem _ _ h1, List.getD_eq_getElem _ _ h2]
  exact sortedProbs_getElem_le p (by omega) h2 h1

theorem topProb_eq_argmax {C : ℕ} (p : Fin C → ℝ) (j : Fin C)
    (hj : ∀ m, p m ≤ p j) : topProb p = p j := by
  have hC : 1 ≤ C := by have := j.isLt; omega
  obtain ⟨m, hm⟩ := topProb_attained p hC
  refine le_antisymm ?_ (le_topProb p j)
  rw [← hm]
  exact hj m

theorem two_le_count_of_getElem {l : List ℝ} {x : ℝ} {u v : ℕ} (hu : u < l.length)
    (hv : v < l.length) (huv : u < v) (hxu : l[u] = x) (hxv : l[v] = x) :
    2 ≤ l.count x := by
  have h1 : 0 < (l.take v).count x := by
    rw [List.count_pos_iff, List.mem_iff_getElem]
    have hlen : u < (l.take v).length := by rw [List.length_take]; omega
    refine ⟨u, hlen, ?_⟩
    rw [List.getElem_take]
    exact hxu
  have h2 : 0 < (l.drop v).count x := by
    rw [List.count_pos_iff, List.drop_eq_getElem_cons hv, hxv]
    exact List.mem_cons_self x _
  have h3 := List.count_append x (l.take v) (l.drop v)
  rw [List.take_append_drop] at h3
  omega

theorem count_le_one_of_unique {C : ℕ} (p : Fin C → ℝ) (x : ℝ) (j : Fin C)
    (huniq : ∀ m, m ≠ j → p m ≠ x) : (List.ofFn p).count x ≤ 1 := by
  rw [List.ofFn_eq_map, List.count_eq_countP, List.countP_map,
    List.countP_eq_length_filter]
  have hsub : ((List.finRange C).filter ((fun a => a == x) ∘ p)) ⊆ [j] := by
    intro i hi
    rw [List.mem_filter] at hi
    have hpi : p i = x := eq_of_beq hi.2
    have hij : i = j := by
      by_contra hne
      exact huniq i hne hpi
    rw [hij]
    exact List.mem_cons_self j []
  have hnodup : ((List.finRange C).filter ((fun a => a == x) ∘ p)).Nodup :=
    (List.nodup_finRange C).filter _
  have hlen := (List.subperm_of_subset hnodup hsub).length_le
  simpa using hlen

theorem exists_second_index {C : ℕ} (p : Fin C → ℝ) (j : Fin C) {x : ℝ}
    (hcount : 2 ≤ (List.ofFn p).count x) : ∃ m, m ≠ j ∧ p m = x := by
  by_contra hnot
  push_neg at hnot
  have := count_le_one_of_unique p x j hnot
  omega

theorem count_of_two_indices {C : ℕ} (p : Fin C → ℝ) {m j : Fin C} (hmj : m ≠ j)
    (heq : p m = p j) : 2 ≤ (List.ofFn p).count (p j) := by
  have hnodup : ([m, j] : List (Fin C)).Nodup := by simp [hmj]
  have hsubset : ([m, j] : List (Fin C)) ⊆ List.finRange C :=
    fun x _ => List.mem_finRange x
  obtain ⟨u, hup, hus⟩ := List.subperm_of_subset hnodup hsubset
  have hmap : ([m, j].map p).Subperm ((List.finRange C).map p) :=
    ⟨u.map p, hup.map p, hus.map p⟩
  rw [← List.ofFn_eq_map] at hmap
  have hle := hmap.count_le (p j)
  rw [List.map_cons, List.map_cons, List.map_nil, heq] at hle
  simpa using hle

/-- The second entry from the top of the sorted row is the second-largest
probability: it is attained at an index other than any argmax, and it
bounds every probability other than one argmax copy. -/
theorem secondProb_spec {C : ℕ} (p : Fin C → ℝ) (hC : 2 ≤ C) (j : Fin C)
    (hj : ∀ m, p m ≤ p j) :
    (∃ m, m ≠ j ∧ secondProb p = p m) ∧ (∀ m, m ≠ j → p m ≤ secondProb p) := by
  have hlen := sortedProbs_length p
  have h1 : C - 1 < (sortedProbs p).length := by omega
  have h2 : C - 2 < (sortedProbs p).length := by omega
  have htop : topProb p = p j := topProb_eq_argmax p j hj
  have htopg : (sortedProbs p)[C - 1] = p j := by
    rw [← htop, topProb, List.getD_eq_getElem _ _ h1]
  have hsecond : secondProb p = (sortedProbs p)[C - 2] := by
    rw [secondProb, List.getD_eq_getElem _ _ h2]
  have hcbound : ∀ m, m ≠ j → p m ≤ secondProb p := by
    intro m hm
    by_contra hgt
    push_neg at hgt
    obtain ⟨t, ht, hval⟩ := List.mem_iff_getElem.mp (mem_sortedProbs p m)
    have htc : t = C - 1 := by
      by_contra htne
      have htle : t ≤ C - 2 := by omega
      have hle2 : (sortedProbs p)[t] ≤ (sortedProbs p)[C - 2] :=
        sortedProbs_getElem_le p htle ht h2
      rw [hval, ← hsecond] at hle2
      exact absurd hle2 (not_le.mpr hgt)
    subst htc
    have hpm : p m = p j := by
      rw [← hval, htopg]
    have hcnt2 : 2 ≤ (sortedProbs p).count (p j) := by
      rw [(sortedProbs_perm p).count_eq]
      exact count_of_two_indices p hm hpm
    have htake : p j ∈ (sortedProbs p).take (C - 1) := by
      by_contra hnt
      have hz : ((sortedProbs p).take (C - 1)).count (p j) = 0 :=
        List.count_eq_zero.mpr hnt
      have hone : ((sortedProbs p).drop (C - 1)).count (p j) ≤ 1 := by
        have hd : (sortedProbs p).drop (C - 1) = [(sortedProbs p)[C - 1]] := by
          rw [List.drop_eq_getElem_cons h1]
          congr 1
          exact List.drop_eq_nil_of_le (by omega)
        rw [hd]
        exact le_trans (List.count_le_length _ _) (by simp)
      have hsum := List.count_append (p j) ((sortedProbs p).take (C - 1))
        ((sortedProbs p).drop (C - 1))
      rw [List.take_append_drop] at hsum
      omega
    obtain ⟨u, hu, huval⟩ := List.mem_iff_getElem.mp htake
    have hu2 : u < C - 1 := by rw [List.length_take] at hu; omega
    have huval2 : (sortedProbs p)[u] = p j := by
      rw [← huval, List.getElem_take]
    have hle3 : p j ≤ secondProb p := by
      rw [hsecond, ← huval2]
      exact sortedProbs_getElem_le p (by omega) (by omega) h2
    rw [← hpm] at hle3
    exact absurd hle3 (not_le.mpr hgt)
  refine ⟨?_, hcbound⟩
  have hsmem : secondProb p ∈ sortedProbs p := by
    rw [hsecond]
    exact List.getElem_mem h2
  by_cases hsj : secondProb p = p j
  · have hx2 : (sortedProbs p)[C - 2] = p j := by
      rw [← hsecond]
      exact hsj
    have hcnt : 2 ≤ (sortedProbs p).count (p j) :=
      two_le_count_of_getElem h2 h1 (by omega) hx2 htopg
    have hcnt2 : 2 ≤ (List.ofFn p).count (p j) := by
      rw [← (sortedProbs_perm p).count_eq]
      exact hcnt
    obtain ⟨m, hmne, hmval⟩ := exists_second_index p j hcnt2
    exact ⟨m, hmne, by rw [hsj, ← hmval]⟩
  · obtain ⟨m0, hm0⟩ := sortedProbs_exists p hsmem
    refine ⟨m0, ?_, hm0.symm⟩
    intro hm0j
    rw [hm0j] at hm0
    exact hsj hm0.symm

/-- The margin contract of a valid row, written from the words of the spec:
the score is the negated difference between the largest and second-largest
probability, the largest is attained and bounds all entries, the
second-largest is attained away from any argmax and bounds all other
entries, two equal largest probabilities give score exactly `0`, and `0` is
the maximum attainable margin score. -/
def marginRowSpec {C : ℕ} (p : Fin C → ℝ) (score : EReal) : Prop :=
  (score = ((-(topProb p - secondProb p) : ℝ) : EReal)) ∧
  (∃ j, topProb p = p j ∧ ∀ m, p m ≤ p j) ∧
  (∀ j, (∀ m, p m ≤ p j) →
    (∃ m, m ≠ j ∧ secondProb p = p m) ∧ (∀ m, m ≠ j → p m ≤ secondProb p)) ∧
  ((∃ j m, m ≠ j ∧ p m = p j ∧ ∀ m2, p m2 ≤ p j) → score = ((0 : ℝ) : EReal)) ∧
  score ≤ ((0 : ℝ) : EReal)

/-- C4: on every valid row with at least two classes, the margin score is
the negation of (top-1 softmax probability minus top-2 softmax
probability); when the two largest probabilities are equal the score is
exactly `0`, which is the maximum attainable margin score. -/
theorem C4_margin_scores :
    ∀ (n C : ℕ) (logits : Fin n → Fin C → ℝ) (masks : Fin n → Bool) (i : Fin n),
      2 ≤ C → masks i = true →
      marginRowSpec (softmax (logits i)) (get_margin_scores logits masks i) := by
  intro n C logits masks i hC hm
  have heq : get_margin_scores logits masks i =
      ((-(topProb (softmax (logits i)) - secondProb (softmax (logits i))) : ℝ) : EReal) := by
    rw [get_margin_scores, if_pos hm]
  haveI : Nonempty (Fin C) := ⟨⟨0, by omega⟩⟩
  obtain ⟨j0, hj0⟩ := Finite.exists_max (softmax (logits i))
  refine ⟨heq, ⟨j0, topProb_eq_argmax _ j0 hj0, hj0⟩, ?_, ?_, ?_⟩
  · intro j hj
    exact secondProb_spec _ hC j hj
  · rintro ⟨j, m, hmj, hpm, hj⟩
    have htop : topProb (softmax (logits i)) = softmax (logits i) j :=
      topProb_eq_argmax _ j hj
    have hsec : softmax (logits i) m ≤ secondProb (softmax (logits i)) :=
      (secondProb_spec _ hC j hj).2 m hmj
    have h2 : topProb (softmax (logits i)) = secondProb (softmax (logits i)) := by
      refine le_antisymm ?_ (secondProb_le_topProb _ hC)
      rw [htop, ← hpm]
      exact hsec
    rw [heq, h2]
    have hz : (-(secondProb (softmax (logits i)) - secondProb (softmax (logits i))) : ℝ)
        = 0 := by ring
    rw [hz]
  · rw [heq]
    have h1 : secondProb (softmax (logits i)) ≤ topProb (softmax (logits i)) :=
      secondProb_le_topProb _ hC
    have hle : (-(topProb (softmax (logits i)) - secondProb (softmax (logits i))) : ℝ)
        ≤ 0 := by linarith
    exact_mod_cast hle

theorem C4_margin_scores_witness :
    (2 ≤ 2) ∧ ((fun _ : Fin 1 => true) 0 = true) ∧
    marginRowSpec (softmax ((fun _ : Fin 1 => fun _ : Fin 2 => (0 : ℝ)) 0))
      (get_margin_scores (fun _ : Fin 1 => fun _ : Fin 2 => (0 : ℝ)) (fun _ => true) 0) :=
  ⟨by norm_num, rfl,
    C4_margin_scores 1 2 (fun _ : Fin 1 => fun _ : Fin 2 => (0 : ℝ))
      (fun _ => true) 0 (by norm_num) rfl⟩

/-- C5: for each of the four scoring functions, every entry whose mask is
false is exactly `-infinity` (`⊥`); for density scoring the claim concerns
the scores the call returns (the call itself fails on an all-invalid pool),
and the call does return scores whenever some entry is valid. -/
theorem C5_masked_entries_neg_inf :
    (∀ (n C : ℕ) (logits : Fin n → Fin C → ℝ) (masks : Fin n → Bool) (i : Fin n),
      masks i = false → get_entropy_scores logits masks i = ⊥) ∧
    (∀ (n C : ℕ) (logits : Fin n → Fin C → ℝ) (masks : Fin n → Bool) (i : Fin n),
      masks i = false → get_margin_scores logits masks i = ⊥) ∧
    (∀ (n : ℕ) (rand : Fin n → ℝ) (masks : Fin n → Bool) (i : Fin n),
      masks i = false → get_uniform_scores rand masks i = ⊥) ∧
    (∀ (n d K : ℕ) (pre : Fin n → Fin d → ℝ) (masks : Fin n → Bool)
      (means : Fin K → Fin d → ℝ) (cov : Matrix (Fin d) (Fin d) ℝ) (i : Fin n),
      masks i = false →
      ∀ r ∈ get_density_scores pre masks means cov, r i = ⊥) ∧
    (∀ (n d K : ℕ) (pre : Fin n → Fin d → ℝ) (masks : Fin n → Bool)
      (means : Fin K → Fin d → ℝ) (cov : Matrix (Fin d) (Fin d) ℝ),
      (∃ i, masks i = true) →
      (get_density_scores pre masks means cov).isSome = true) := by
  refine ⟨?_, ?_, ?_, ?_, ?_⟩
  · intro n C logits masks i h
    rw [get_entropy_scores, if_neg (by rw [h]; exact Bool.false_ne_true)]
  · intro n C logits masks i h
    rw [get_margin_scores, if_neg (by rw [h]; exact Bool.false_ne_true)]
  · intro n rand masks i h
    rw [get_uniform_scores, if_neg (by rw [h]; exact Bool.false_ne_true)]
  · intro n d K pre masks means cov i h r hr
    rw [get_density_scores] at hr
    split_ifs at hr with hex
    · rw [Option.mem_def, Option.some_inj] at hr
      rw [← hr]
      exact if_neg (by rw [h]; exact Bool.false_ne_true)
    · exact absurd hr (by simp)
  · intro n d K pre masks means cov hex
    rw [get_density_scores, dif_pos hex, Option.isSome_some]

theorem C5_masked_entries_neg_inf_witness :
    ((fun _ : Fin 1 => false) 0 = false) ∧
    get_entropy_scores (fun _ : Fin 1 => fun _ : Fin 2 => (0 : ℝ))
      (fun _ => false) 0 = ⊥ ∧
    get_margin_scores (fun _ : Fin 1 => fun _ : Fin 2 => (0 : ℝ))
      (fun _ => false) 0 = ⊥ ∧
    get_uniform_scores (fun _ : Fin 1 => (0 : ℝ)) (fun _ => false) 0 = ⊥ ∧
    ((![true, false] : Fin 2 → Bool) 1 = false) ∧
    (∀ r ∈ get_density_scores (fun _ : Fin 2 => fun _ : Fin 1 => (0 : ℝ)) ![true, false]
      (fun _ : Fin 1 => fun _ : Fin 1 => (0 : ℝ)) 1, r 1 = ⊥) ∧
    (get_density_scores (fun _ : Fin 2 => fun _ : Fin 1 => (0 : ℝ)) ![true, false]
      (fun _ : Fin 1 => fun _ : Fin 1 => (0 : ℝ)) 1).isSome = true :=
  ⟨rfl, C5_masked_entries_neg_inf.1 1 2 _ _ 0 rfl,
    C5_masked_entries_neg_inf.2.1 1 2 _ _ 0 rfl,
    C5_masked_entries_neg_inf.2.2.1 1 _ _ 0 rfl, rfl,
    C5_masked_entries_neg_inf.2.2.2.1 2 1 1 _ _ _ _ 1 rfl,
    C5_masked_entries_neg_inf.2.2.2.2 2 1 1 _ _ _ _ ⟨0, rfl⟩⟩

/-- State of the fine-tune loop of `finetune` (lines 327-400).  The source
initialises `best_opt_accuracy = -1` and `best_step = 1` but leaves
`best_opt_repl` unbound; `bestParams = none` models the unbound local, so
that returning it raises `UnboundLocalError` (line 400, see the comment at
line 392 of the source).  `stopped` records the `break` of line 390, and
`lastStep` the last loop iteration that executed. -/
structure FTState (P : Type) where
  bestAcc : ℚ
  bestStep : ℕ
  bestParams : Option P
  stopped : Bool
  lastStep : ℕ
deriving DecidableEq

/-- One iteration of the fine-tune loop body (lines 367-390): apply the
update (the parameters after step `s` are abstracted as `params s`, the
validation accuracy measured after step `s` as `valAcc s`); every 5th step
evaluate, snapshot on a new best (ties go to the newer snapshot, `>=` at
line 382), otherwise stop once `current_step - best_step` reaches the
patience (line 388). -/
def finetuneStep {P : Type} (params : ℕ → P) (valAcc : ℕ → ℚ) (patience : ℕ)
    (st : FTState P) (step : ℕ) : FTState P :=
  if st.stopped then st
  else if step % 5 = 0 then
    if st.bestAcc ≤ valAcc step then
      ⟨valAcc step, step, some (params step), false, step⟩
    else if patience ≤ step - st.bestStep then
      ⟨st.bestAcc, st.bestStep, st.bestParams, true, step⟩
    else ⟨st.bestAcc, st.bestStep, st.bestParams, false, step⟩
  else ⟨st.bestAcc, st.bestStep, st.bestParams, st.stopped, step⟩

/-- Translation of `finetune` (lines 327-400): fold the loop body over the
steps `1, ..., total_steps`. -/
def finetune {P : Type} (params : ℕ → P) (valAcc : ℕ → ℚ) (patience total : ℕ) :
    FTState P :=
  (List.range' 1 total).foldl (finetuneStep params valAcc patience) ⟨-1, 1, none, false, 0⟩

/-- C6 (amended): with `total_steps = 10`, `early_stopping_patience = 2` and
a validation accuracy sequence that peaks at step 5 and then strictly
decreases, the loop runs through step 10 (not step 7: evaluations happen
only every 5th step, so the patience of 2 is first checked at step 10,
where `10 - 5 >= 2` triggers the early stop) and returns the step-5
parameter snapshot, never the last-seen parameters. -/
theorem C6_finetune_early_stopping {P : Type} (params : ℕ → P) (valAcc : ℕ → ℚ)
    (h5 : 0 ≤ valAcc 5) (h10 : valAcc 10 < valAcc 5) :
    finetune params valAcc 2 10 =
      ⟨valAcc 5, 5, some (params 5), true, 10⟩ := by
  have hA : (-1 : ℚ) ≤ valAcc 5 := by linarith
  have hB : ¬(valAcc 5 ≤ valAcc 10) := not_le.mpr h10
  have hr : List.range' 1 10 = [1, 2, 3, 4, 5, 6, 7, 8, 9, 10] := by decide
  rw [finetune, hr]
  simp only [List.foldl_cons, List.foldl_nil]
  norm_num [finetuneStep, hA, hB]

theorem C6_finetune_early_stopping_witness :
    ((0 : ℚ) ≤ (fun s : ℕ => if s = 5 then (1 : ℚ) else 0) 5) ∧
    ((fun s : ℕ => if s = 5 then (1 : ℚ) else 0) 10 <
      (fun s : ℕ => if s = 5 then (1 : ℚ) else 0) 5) ∧
    finetune (fun s : ℕ => s) (fun s : ℕ => if s = 5 then (1 : ℚ) else 0) 2 10 =
      ⟨(fun s : ℕ => if s = 5 then (1 : ℚ) else 0) 5, 5, some 5, true, 10⟩ :=
  ⟨by norm_num, by norm_num,
    C6_finetune_early_stopping (fun s : ℕ => s) _ (by norm_num) (by norm_num)⟩

/-- C6 counterexample: the claim as stated requires the loop to terminate
at or before step 7.  With a validation accuracy that peaks at step 5
(value 1) and then strictly decreases (value 0 at step 10), the loop runs
through step 10 — only every 5th step is evaluated, so the patience check
first fires at step 10 — refuting `lastStep ≤ 7`, while the step-5
snapshot is indeed returned. -/
theorem C6_counterexample :
    ((0 : ℚ) ≤ 1) ∧ ((0 : ℚ) < 1) ∧
    (finetune (fun s : ℕ => s) (fun s : ℕ => if s = 5 then (1 : ℚ) else 0) 2 10).lastStep
      = 10 ∧
    ¬((finetune (fun s : ℕ => s)
        (fun s : ℕ => if s = 5 then (1 : ℚ) else 0) 2 10).lastStep ≤ 7) ∧
    (finetune (fun s : ℕ => s)
        (fun s : ℕ => if s = 5 then (1 : ℚ) else 0) 2 10).bestParams = some 5 := by
  decide

theorem finetuneStep_bestParams {P : Type} (params : ℕ → P) (valAcc : ℕ → ℚ)
    (patience : ℕ) (st : FTState P) (s : ℕ) (hs : ¬s % 5 = 0) :
    (finetuneStep params valAcc patience st s).bestParams = st.bestParams := by
  rw [finetuneStep]
  by_cases h : st.stopped
  · rw [if_pos h]
  · rw [if_neg h, if_neg hs]

theorem foldl_bestParams_of_no_eval {P : Type} (params : ℕ → P) (valAcc : ℕ → ℚ)
    (patience : ℕ) :
    ∀ steps : List ℕ, (∀ s ∈ steps, ¬s % 5 = 0) → ∀ st : FTState P,
      ((steps.foldl (finetuneStep params valAcc patience) st).bestParams) =
        st.bestParams := by
  intro steps
  induction steps with
  | nil => intro _ st; rfl
  | cons s t ih =>
    intro h st
    rw [List.foldl_cons, ih (fun x hx => h x (List.mem_cons_of_mem s hx)),
      finetuneStep_bestParams params valAcc patience st s (h s (List.mem_cons_self s t))]

/-- C10: whenever `total_steps < 5` the every-5th-step evaluation never
runs, so no best validation accuracy is ever recorded and `best_opt_repl`
is never assigned; the `return` of line 400 then raises
`UnboundLocalError` instead of returning the initial or last-seen
parameters.  The unbound local is modelled by `bestParams = none`. -/
theorem C10_finetune_unbound {P : Type} (params : ℕ → P) (valAcc : ℕ → ℚ)
    (patience total : ℕ) (htot : total < 5) :
    (finetune params valAcc patience total).bestParams = none := by
  rw [finetune, foldl_bestParams_of_no_eval]
  intro s hs
  rw [List.mem_range'] at hs
  obtain ⟨i, hi, rfl⟩ := hs
  omega

theorem C10_finetune_unbound_witness :
    ((4 : ℕ) < 5) ∧
    (finetune (fun s : ℕ => s) (fun _ : ℕ => (0 : ℚ)) 2 4).bestParams = none :=
  ⟨by norm_num, C10_finetune_unbound (fun s : ℕ => s) (fun _ => 0) 2 4 (by norm_num)⟩

theorem C9_select_deterministic_witness :
    ([0, 1].Perm [1, 0]) ∧
    select_acquisition_batch_indices 1
        (![((3 : ℚ) : WithBot ℚ), ((1 : ℚ) : WithBot ℚ), ((4 : ℚ) : WithBot ℚ)])
        ![0, 1, 2] [0, 1] =
      select_acquisition_batch_indices 1
        (![((3 : ℚ) : WithBot ℚ), ((1 : ℚ) : WithBot ℚ), ((4 : ℚ) : WithBot ℚ)])
        ![0, 1, 2] [1, 0] :=
  ⟨by decide, C9_select_deterministic 1 _ _ (by decide)⟩

instance exceptDecidableEq {ε β : Type} [DecidableEq ε] [DecidableEq β] :
    DecidableEq (Except ε β) := fun a b =>
  match a, b with
  | Except.error e1, Except.error e2 =>
    if h : e1 = e2 then isTrue (congrArg Except.error h)
    else isFalse (fun hc => h (Except.error.inj hc))
  | Except.error _, Except.ok _ => isFalse (fun hc => Except.noConfusion hc)
  | Except.ok _, Except.error _ => isFalse (fun hc => Except.noConfusion hc)
  | Except.ok v1, Except.ok v2 =>
    if h : v1 = v2 then isTrue (congrArg Except.ok h)
    else isFalse (fun hc => h (Except.ok.inj hc))

/-- Configuration consumed by the controller `main` (flags at lines 64-83,
read at lines 552, 664, 715, 760 and 848 of the source). -/
structure ALConfig where
  method : String
  acquisition_batch_size : ℕ
  initial_training_set_size : ℕ
  max_training_set_size : ℕ

/-- Phases of one iteration of the `while` loop of `main` that execute
before the acquisition-method dispatch: fine-tuning (line 761, only when
the labelled subset is non-empty), test evaluation (line 799) and pool
inference (line 808).  Each phase records the labelled-subset size of its
round. -/
inductive Phase where
  | finetuning : ℕ → Phase
  | evaluating : ℕ → Phase
  | inference : ℕ → Phase
deriving DecidableEq

/-- Failure outcomes of a run.  `unknownMethod` is the `ValueError` of line
845, carrying the phases that executed before it was raised;
`selectionFailed` and `initSelectionFailed` model crashes inside the
selection engine; `outOfFuel` flags a loop that no longer grows (such a
run never terminates in the source). -/
inductive RunError where
  | unknownMethod : List Phase → RunError
  | selectionFailed : RunError
  | initSelectionFailed : RunError
  | outOfFuel : RunError
deriving DecidableEq

/-- The values accepted by the `acquisition_method` enum flag (lines 66-70)
and dispatched at lines 814-845. -/
def allowedMethods : List String := ["uniform", "density", "margin", "entropy"]

/-- One iteration of the `while` loop of `main` (lines 711-861).  In the
source each iteration runs fine-tuning (if the subset is non-empty), test
evaluation and pool inference, then dispatches on the acquisition method
(lines 814-845) — raising `ValueError` for an unknown name — and finally
selects and unions the acquired ids into the subset (lines 847-854).  The
scores computed by the configured method are abstracted as the oracle
`sc` (they depend on the network, out of scope); the Python set of
acquired ids is iterated in sorted order, which loses no generality by
`forceIgnored_perm`. -/
def roundStep {n : ℕ} (cfg : ALConfig) (sc : Fin n → α) (ids : Fin n → ℕ)
    (S : Finset ℕ) : Except RunError (Finset ℕ) :=
  let phases := (if 0 < S.card then [Phase.finetuning S.card] else []) ++
    [Phase.evaluating S.card, Phase.inference S.card]
  if cfg.method ∈ allowedMethods then
    match select_acquisition_batch_indices cfg.acquisition_batch_size sc ids
        (S.sort (fun a b : ℕ => a ≤ b)) with
    | none => Except.error RunError.selectionFailed
    | some (sel, _) => Except.ok (S ∪ sel.toFinset)
  else Except.error (RunError.unknownMethod phases)

/-- The `while True` loop of `main` (line 711): stop once the labelled
subset has reached `max_training_set_size` (lines 713-716), otherwise run
one round and recurse; the round counter is returned with the final
subset.  `fuel` bounds the number of iterations; every terminating run of
the source grows the subset each round, so `max_training_set_size + 1`
iterations suffice. -/
def mainLoopAux {n : ℕ} (cfg : ALConfig) (sc : ℕ → Fin n → α) (ids : Fin n → ℕ) :
    ℕ → Finset ℕ → ℕ → Except RunError (Finset ℕ × ℕ)
  | 0, _, _ => Except.error RunError.outOfFuel
  | fuel + 1, S, r =>
    if cfg.max_training_set_size ≤ S.card then Except.ok (S, r)
    else
      match roundStep cfg (sc r) ids S with
      | Except.error e => Except.error e
      | Except.ok S2 => mainLoopAux cfg sc ids fuel S2 (r + 1)

/-- Translation of the controller `main` (lines 550-869): optionally
acquire an initial training set with uniform scores and an empty ignore
set (lines 664-684), then run the round loop. -/
def mainRun {n : ℕ} (cfg : ALConfig) (initSc : Fin n → α) (sc : ℕ → Fin n → α)
    (ids : Fin n → ℕ) : Except RunError (Finset ℕ × ℕ) :=
  if 0 < cfg.initial_training_set_size then
    match select_acquisition_batch_indices cfg.initial_training_set_size initSc ids [] with
    | none => Except.error RunError.initSelectionFailed
    | some (sel, _) =>
      mainLoopAux cfg sc ids (cfg.max_training_set_size + 1) sel.toFinset 0
  else mainLoopAux cfg sc ids (cfg.max_training_set_size + 1) ∅ 0

/-- C7 (amended): an unrecognised acquisition-method name is fatal, but it
is not raised before any round executes: the `ValueError` of line 845 is
raised inside round 0, after the fine-tuning of that round (none here, the
subset starts empty), test evaluation and pool inference, and before any
selection.  (When the program is started through its CLI, the enum flag of
lines 66-70 rejects the name before `main` runs; `main` itself defers the
check.) -/
theorem C7_unknown_method {n : ℕ} (cfg : ALConfig) (initSc : Fin n → α)
    (sc : ℕ → Fin n → α) (ids : Fin n → ℕ)
    (hmethod : cfg.method ∉ allowedMethods)
    (hinit : cfg.initial_training_set_size = 0)
    (hmax : 0 < cfg.max_training_set_size) :
    mainRun cfg initSc sc ids =
      Except.error (RunError.unknownMethod [Phase.evaluating 0, Phase.inference 0]) := by
  rw [mainRun, if_neg (by rw [hinit]; omega)]
  simp only [mainLoopAux, Finset.card_empty]
  rw [if_neg (by omega)]
  simp only [roundStep, Finset.card_empty]
  rw [if_neg hmethod]
  norm_num

theorem C7_unknown_method_witness :
    ((⟨"foo", 1, 0, 1⟩ : ALConfig).method ∉ allowedMethods) ∧
    ((⟨"foo", 1, 0, 1⟩ : ALConfig).initial_training_set_size = 0) ∧
    (0 < (⟨"foo", 1, 0, 1⟩ : ALConfig).max_training_set_size) ∧
    mainRun (⟨"foo", 1, 0, 1⟩ : ALConfig) (fun _ : Fin 1 => (⊥ : WithBot ℚ))
        (fun _ _ => (⊥ : WithBot ℚ)) ![0] =
      Except.error (RunError.unknownMethod [Phase.evaluating 0, Phase.inference 0]) :=
  ⟨by decide, rfl, by norm_num,
    C7_unknown_method _ _ _ _ (by decide) rfl (by norm_num)⟩

/-- C7 counterexample: the claim states the configuration error is raised
immediately, before any round executes — before any fine-tuning,
evaluation or scoring of round 0.  In this concrete run with method
`"foo"`, the error is raised only after the round-0 evaluation and pool
inference have executed: the recorded phase list is nonempty. -/
theorem C7_counterexample :
    mainRun (⟨"foo", 1, 0, 1⟩ : ALConfig) (fun _ : Fin 1 => (⊥ : WithBot ℚ))
        (fun _ _ => (⊥ : WithBot ℚ)) ![0] =
      Except.error (RunError.unknownMethod [Phase.evaluating 0, Phase.inference 0]) ∧
    [Phase.evaluating 0, Phase.inference 0] ≠ ([] : List Phase) := by
  decide

theorem card_filter_not_mem {n : ℕ} (ids : Fin n → ℕ)
    (hinj : Function.Injective ids) (S : Finset ℕ) :
    n - S.card ≤ (Finset.univ.filter (fun i => ids i ∉ S)).card := by
  have h1 : (Finset.univ.filter (fun i => ids i ∈ S)).card ≤ S.card := by
    apply Finset.card_le_card_of_injOn ids
    · intro i hi
      exact (Finset.mem_filter.mp hi).2
    · intro a _ b _ hab
      exact hinj hab
  have h2 := Finset.filter_card_add_filter_neg_card_eq_card
    (s := (Finset.univ : Finset (Fin n))) (p := fun i => ids i ∈ S)
  rw [Finset.card_univ, Fintype.card_fin] at h2
  omega

/-- A successful round with a sane pool: distinct pool ids, every score
valid, batch size at least 1 and pool strictly larger than subset plus
batch.  The round succeeds, keeps the subset, and grows it by exactly
`acquisition_batch_size` fresh pool ids. -/
theorem roundStep_spec {n : ℕ} (cfg : ALConfig) (sc : Fin n → α) (ids : Fin n → ℕ)
    (S : Finset ℕ)
    (hmethod : cfg.method ∈ allowedMethods)
    (hinj : Function.Injective ids)
    (hval : ∀ i, ⊥ < sc i)
    (hpres : ∀ x ∈ S, ∃ i, ids i = x)
    (hk1 : 1 ≤ cfg.acquisition_batch_size)
    (hkn : cfg.acquisition_batch_size < n)
    (hcap : S.card + cfg.acquisition_batch_size ≤ n) :
    ∃ S2, roundStep cfg sc ids S = Except.ok S2 ∧ S ⊆ S2 ∧
      S2.card = S.card + cfg.acquisition_batch_size ∧ ∀ x ∈ S2, ∃ i, ids i = x := by
  have hpres2 : ∀ x ∈ S.sort (fun a b : ℕ => a ≤ b), ∃ i, ids i = x := by
    intro x hx
    exact hpres x ((Finset.mem_sort _).mp hx)
  have hcount : cfg.acquisition_batch_size ≤
      (Finset.univ.filter
        (fun i => ids i ∉ S.sort (fun a b : ℕ => a ≤ b) ∧ ⊥ < sc i)).card := by
    have hfeq : (Finset.univ.filter
        (fun i => ids i ∉ S.sort (fun a b : ℕ => a ≤ b) ∧ ⊥ < sc i)) =
        (Finset.univ.filter (fun i => ids i ∉ S)) := by
      apply Finset.filter_congr
      intro i _
      simp [Finset.mem_sort, hval i]
    rw [hfeq]
    have := card_filter_not_mem ids hinj S
    omega
  obtain ⟨sel, ss, hsel, hspec⟩ := select_success_spec cfg.acquisition_batch_size sc ids
    (S.sort (fun a b : ℕ => a ≤ b)) hinj hpres2 hcount hk1 hkn
  obtain ⟨hlen, hnodup, hdisj, hfrom, hsslen, htopk⟩ := hspec
  refine ⟨S ∪ sel.toFinset, ?_, Finset.subset_union_left, ?_, ?_⟩
  · simp only [roundStep]
    rw [if_pos hmethod, hsel]
  · rw [Finset.card_union_of_disjoint, List.toFinset_card_of_nodup hnodup, hlen]
    rw [Finset.disjoint_right]
    intro x hx hxS
    exact hdisj x (List.mem_toFinset.mp hx) ((Finset.mem_sort _).mpr hxS)
  · intro x hx
    rcases Finset.mem_union.mp hx with h | h
    · exact hpres x h
    · exact hfrom x (List.mem_toFinset.mp h)

/-- The budget configuration of the claim: start empty, acquire 5 per
round, stop at 20. -/
def cfgBudget : ALConfig := ⟨"uniform", 5, 0, 20⟩

theorem mainLoopAux_budget {n : ℕ} (sc : ℕ → Fin n → α) (ids : Fin n → ℕ)
    (hinj : Function.Injective ids) (hval : ∀ r i, ⊥ < sc r i) (hn : 25 ≤ n) :
    ∀ (j fuel r : ℕ) (S : Finset ℕ), 5 * j + S.card = 20 → j < fuel →
      (∀ x ∈ S, ∃ i, ids i = x) →
      ∃ Sf, mainLoopAux cfgBudget sc ids fuel S r = Except.ok (Sf, r + j) ∧
        Sf.card = 20 := by
  intro j
  induction j with
  | zero =>
    intro fuel r S hcard hfuel hpres
    cases fuel with
    | zero => omega
    | succ f =>
      refine ⟨S, ?_, by omega⟩
      simp only [mainLoopAux]
      rw [if_pos (show cfgBudget.max_training_set_size ≤ S.card by
        rw [show cfgBudget.max_training_set_size = 20 from rfl]; omega)]
      rfl
  | succ j ih =>
    intro fuel r S hcard hfuel hpres
    cases fuel with
    | zero => omega
    | succ f =>
      obtain ⟨S2, hstep, hsub, hcard3, hpres2⟩ := roundStep_spec cfgBudget (sc r) ids S
        (by decide) hinj (hval r) hpres (by decide)
        (by simp only [cfgBudget]; omega)
        (by simp only [cfgBudget]; omega)
      have hc3 : S2.card = S.card + 5 := by
        simpa [cfgBudget] using hcard3
      obtain ⟨Sf, hloop, hSf⟩ := ih f (r + 1) S2 (by omega) (by omega) hpres2
      have hrw : r + 1 + j = r + (j + 1) := by omega
      rw [hrw] at hloop
      refine ⟨Sf, ?_, hSf⟩
      simp only [mainLoopAux]
      rw [if_neg (show ¬(cfgBudget.max_training_set_size ≤ S.card) by
        rw [show cfgBudget.max_training_set_size = 20 from rfl]; omega), hstep]
      exact hloop

/-- C8: the labelled subset never loses an id — every successful
acquisition round keeps the previous subset and grows it by exactly
`acquisition_batch_size` fresh pool ids (given a sane pool: distinct ids,
valid scores, pool strictly larger than subset plus batch); a positive
`initial_training_set_size` likewise seeds exactly that many ids at round
0; consequently, with `initial_training_set_size = 0`,
`acquisition_batch_size = 5` and `max_training_set_size = 20`, the
controller executes exactly 4 acquisition rounds before stopping, ending
with 20 labelled ids. -/
theorem C8_round_budget :
    (∀ {n : ℕ} (cfg : ALConfig) (sc : Fin n → α) (ids : Fin n → ℕ) (S : Finset ℕ),
      cfg.method ∈ allowedMethods → Function.Injective ids → (∀ i, ⊥ < sc i) →
      (∀ x ∈ S, ∃ i, ids i = x) → 1 ≤ cfg.acquisition_batch_size →
      cfg.acquisition_batch_size < n → S.card + cfg.acquisition_batch_size ≤ n →
      ∃ S2, roundStep cfg sc ids S = Except.ok S2 ∧ S ⊆ S2 ∧
        S2.card = S.card + cfg.acquisition_batch_size ∧ ∀ x ∈ S2, ∃ i, ids i = x) ∧
    (∀ {n : ℕ} (k : ℕ) (initSc : Fin n → α) (ids : Fin n → ℕ),
      Function.Injective ids → (∀ i, ⊥ < initSc i) → 1 ≤ k → k < n →
      ∀ sel ss, select_acquisition_batch_indices k initSc ids [] = some (sel, ss) →
        sel.toFinset.card = k) ∧
    (∀ {n : ℕ} (initSc : Fin n → α) (sc : ℕ → Fin n → α) (ids : Fin n → ℕ),
      Function.Injective ids → (∀ r i, ⊥ < sc r i) → 25 ≤ n →
      ∃ Sf, mainRun cfgBudget initSc sc ids = Except.ok (Sf, 4) ∧ Sf.card = 20) := by
  refine ⟨?_, ?_, ?_⟩
  · intro n cfg sc ids S hmethod hinj hval hpres hk1 hkn hcap
    exact roundStep_spec cfg sc ids S hmethod hinj hval hpres hk1 hkn hcap
  · intro n k initSc ids hinj hval hk1 hkn sel ss hsel
    have hcount : k ≤ (Finset.univ.filter
        (fun i => ids i ∉ ([] : List ℕ) ∧ ⊥ < initSc i)).card := by
      have hfeq : (Finset.univ.filter
          (fun i => ids i ∉ ([] : List ℕ) ∧ ⊥ < initSc i)) = Finset.univ := by
        apply Finset.filter_true_of_mem
        intro i _
        exact ⟨List.not_mem_nil _, hval i⟩
      rw [hfeq, Finset.card_univ, Fintype.card_fin]
      omega
    obtain ⟨sel2, ss2, hsel2, hspec⟩ := select_success_spec k initSc ids []
      hinj (by simp) hcount hk1 hkn
    rw [hsel] at hsel2
    injection hsel2 with h
    injection h with h1 h2
    subst h1
    rw [List.toFinset_card_of_nodup hspec.2.1, hspec.1]
  · intro n initSc sc ids hinj hval hn
    obtain ⟨Sf, hloop, hSf⟩ := mainLoopAux_budget sc ids hinj hval hn 4
      (cfgBudget.max_training_set_size + 1) 0 ∅ (by simp) (by decide) (by simp)
    refine ⟨Sf, ?_, hSf⟩
    rw [mainRun, if_neg (by decide)]
    simpa using hloop

theorem C8_round_budget_witness :
    (((⟨"uniform", 1, 0, 1⟩ : ALConfig).method ∈ allowedMethods) ∧
      Function.Injective (![3, 4] : Fin 2 → ℕ) ∧
      (∃ S2, roundStep (⟨"uniform", 1, 0, 1⟩ : ALConfig)
          (fun _ : Fin 2 => ((0 : ℚ) : WithBot ℚ)) ![3, 4] ∅ = Except.ok S2 ∧
        (∅ : Finset ℕ) ⊆ S2 ∧
        S2.card = (∅ : Finset ℕ).card +
          (⟨"uniform", 1, 0, 1⟩ : ALConfig).acquisition_batch_size ∧
        ∀ x ∈ S2, ∃ i, (![3, 4] : Fin 2 → ℕ) i = x)) ∧
    (Function.Injective (fun i : Fin 25 => (i : ℕ)) ∧ (25 : ℕ) ≤ 25 ∧
      ∃ Sf, mainRun cfgBudget (fun _ : Fin 25 => ((0 : ℚ) : WithBot ℚ))
          (fun _ _ => ((0 : ℚ) : WithBot ℚ)) (fun i : Fin 25 => (i : ℕ)) =
          Except.ok (Sf, 4) ∧ Sf.card = 20) := by
  refine ⟨⟨by decide, by decide, ?_⟩, ⟨Fin.val_injective, by norm_num, ?_⟩⟩
  · exact C8_round_budget.1 (⟨"uniform", 1, 0, 1⟩ : ALConfig)
      (fun _ : Fin 2 => ((0 : ℚ) : WithBot ℚ)) ![3, 4] ∅ (by decide) (by decide)
      (fun i => WithBot.bot_lt_coe 0) (by simp) (by decide) (by decide) (by decide)
  · exact C8_round_budget.2.2 (fun _ : Fin 25 => ((0 : ℚ) : WithBot ℚ))
      (fun _ _ => ((0 : ℚ) : WithBot ℚ)) (fun i : Fin 25 => (i : ℕ))
      Fin.val_injective (fun r i => WithBot.bot_lt_coe 0) (by norm_num)

end ActiveLearning
